import Mathlib

/-!
Verification of `utils/make_domsub_script.py` (ungoogled-chromium).

The program reads two newline-delimited text lists (regex rules and file
paths), drops blank lines, translates each rule's Python-style group
references `\g<N>` into Perl's `${N}` form, and interpolates both lists into
a fixed shell-script template which it writes at an output path, refusing to
overwrite an existing file and requiring both inputs to exist.

The embedding models the filesystem as a partial map from paths to file
contents, and `make_domain_substitution_script` as a state transformer on it
returning the (possibly unchanged) filesystem plus an optional error.
-/

namespace DomSub

/-- Filesystem model: a path is mapped to the contents of the file at that
path, or `none` when no file exists there. -/
abbrev FS := String → Option String

/-- Errors raised by the generator: `notFound` models `FileNotFoundError`
(raised at lines 28-31 of the source), `alreadyExists` models
`FileExistsError` (raised at lines 32-33). Each carries the offending path. -/
inductive FsError where
  | notFound (p : String)
  | alreadyExists (p : String)
deriving DecidableEq

/-- Line-break characters recognized by Python `str.splitlines`:
LF, CR, VT, FF, FS, GS, RS, NEL, LINE SEPARATOR, PARAGRAPH SEPARATOR. -/
def isLineBreak (c : Char) : Bool :=
  c = '\n' || c = '\r' || c = '\x0b' || c = '\x0c' || c = '\x1c' || c = '\x1d' ||
  c = '\x1e' || c = '\u0085' || c = '\u2028' || c = '\u2029'

/-- Universal-newline translation performed by `Path.read_text()` (text mode
with `newline=None`): each `\r\n` pair and each lone `\r` becomes `\n`. -/
def univNewlines : List Char → List Char
  | '\r' :: '\n' :: rest => '\n' :: univNewlines rest
  | '\r' :: rest => '\n' :: univNewlines rest
  | c :: rest => c :: univNewlines rest
  | [] => []

/-- Prepending one character to the first line of a split result (used by
`splitlines` for characters that are not line breaks). -/
def consFirst (c : Char) : List (List Char) → List (List Char)
  | [] => [[c]]
  | l :: ls => (c :: l) :: ls

/-- Python `str.splitlines`: splits at every line-break character, treating
`\r\n` as a single break; a trailing break does not produce an extra empty
line, and the empty string yields no lines. -/
def splitlines : List Char → List (List Char)
  | [] => []
  | c :: rest =>
    if c = '\r' then
      match rest with
      | '\n' :: rest2 => [] :: splitlines rest2
      | r => [] :: splitlines r
    else if isLineBreak c then
      [] :: splitlines rest
    else
      consFirst c (splitlines rest)

/-- Longest prefix of decimal digits, and the remainder (the greedy `\d+` of
the source's pattern `\\g<(\d+)>`; `\d` is modelled on the ASCII decimal
digits, the form the group numbers take). -/
def takeDigits : List Char → List Char × List Char
  | [] => ([], [])
  | c :: cs =>
    if c.isDigit then
      let p := takeDigits cs
      (c :: p.1, p.2)
    else
      ([], c :: cs)

/-- Splitting a list at its digit prefix recombines to the original list. -/
theorem takeDigits_append (l : List Char) : (takeDigits l).1 ++ (takeDigits l).2 = l := by
  induction l with
  | nil => simp [takeDigits]
  | cons c cs ih =>
    by_cases h : c.isDigit <;> simp [takeDigits, h, ih]

/-- The remainder returned by `takeDigits` is no longer than the input. -/
theorem takeDigits_snd_length (l : List Char) : (takeDigits l).2.length ≤ l.length := by
  conv_rhs => rw [← takeDigits_append l]
  simp

/-- Every character of the digit prefix is a digit. -/
theorem takeDigits_fst_digits (l : List Char) : ∀ c ∈ (takeDigits l).1, c.isDigit := by
  induction l with
  | nil => simp [takeDigits]
  | cons c cs ih =>
    by_cases h : c.isDigit <;> simp [takeDigits, h]
    intro a ha
    exact ih a ha

/-- The remainder returned by `takeDigits` never starts with a digit. -/
theorem takeDigits_snd_head (l : List Char) :
    ∀ c r, (takeDigits l).2 = c :: r → c.isDigit = false := by
  induction l with
  | nil => simp [takeDigits]
  | cons c cs ih =>
    intro a r har
    by_cases h : c.isDigit
    · exact ih a r (by simpa [takeDigits, h] using har)
    · simp [takeDigits, h] at har
      rw [← har.1]
      simpa using h

/-- On a list that is an all-digit block followed by a non-digit head,
`takeDigits` returns exactly that block and that remainder. -/
theorem takeDigits_exact (ds r : List Char) (hds : ∀ c ∈ ds, c.isDigit)
    (hr : ∀ c rest, r = c :: rest → c.isDigit = false) :
    takeDigits (ds ++ r) = (ds, r) := by
  induction ds with
  | nil =>
    cases h : r with
    | nil => simp [takeDigits]
    | cons c rest => simp [takeDigits, hr c rest h]
  | cons d ds ih =>
    have hd : d.isDigit := hds d (by simp)
    have : takeDigits (ds ++ r) = (ds, r) := ih (fun c hc => hds c (by simp [hc]))
    simp [takeDigits, hd, this]

/-- Worker for `gsub`, processing the input one character at a time so that
the recursion is structural. State `none` is ordinary scanning; state
`some acc` means a literal `\g<` has just been consumed, followed so far by
the digits `acc` (in reverse order), and the scanner is still inside a
potential match of the pattern `\\g<(\d+)>`. On failure the consumed
characters are emitted unchanged and scanning resumes right after them,
which is sound because none of `g`, `<`, or a digit can start a match. -/
def gsubA : Option (List Char) → List Char → List Char
  | none, [] => []
  | none, '\\' :: 'g' :: '<' :: rest => gsubA (some []) rest
  | none, c :: cs => c :: gsubA none cs
  | some acc, [] => '\\' :: 'g' :: '<' :: acc.reverse
  | some acc, '\\' :: 'g' :: '<' :: rest =>
    '\\' :: 'g' :: '<' :: (acc.reverse ++ gsubA (some []) rest)
  | some acc, c :: cs =>
    if c.isDigit then
      gsubA (some (c :: acc)) cs
    else if c = '>' then
      if acc.isEmpty then '\\' :: 'g' :: '<' :: '>' :: gsubA none cs
      else '$' :: '\x7b' :: (acc.reverse ++ '\x7d' :: gsubA none cs)
    else
      '\\' :: 'g' :: '<' :: (acc.reverse ++ c :: gsubA none cs)

/-- Translation of `re.sub(r'\\g<(\d+)>', r'${\1}', x)` (line 39 of the
source): scanning left to right, each occurrence of a literal `\g<`,
a maximal nonempty run of digits, and `>` is replaced by `$`, `{`, the same
digits, `}`; elsewhere characters are copied unchanged. The theorems
`gsub_nil`, `gsub_cons`, `gsub_pos` and `gsub_neg` below show that this
satisfies exactly the left-to-right rewriting recurrence of `re.sub`. -/
def gsub (l : List Char) : List Char := gsubA none l

/-- Value of `gsub` on the empty input. -/
theorem gsub_nil : gsub [] = [] := rfl

/-- A character that does not start an occurrence of `\g<` is copied. -/
theorem gsub_cons (c : Char) (cs : List Char)
    (h : ¬(c = '\\' ∧ ∃ r, cs = 'g' :: '<' :: r)) :
    gsub (c :: cs) = c :: gsub cs := by
  show gsubA none (c :: cs) = c :: gsubA none cs
  rw [gsubA.eq_def]
  split
  · rename_i heq
    simp at heq
  · rename_i heq
    injection heq with e1 e2
    exact absurd ⟨e1, _, e2⟩ h
  · rename_i heq
    injection heq with e1 e2
    subst e1
    subst e2
    rfl
  · rename_i hob heq
    simp at hob
  · rename_i hob heq
    simp at hob
  · rename_i hob heq
    simp at hob

/-- Unfolding of `gsubA` in the pending state at a head `\g<`. -/
theorem gsubA_some_ghead (acc rest : List Char) :
    gsubA (some acc) ('\\' :: 'g' :: '<' :: rest) =
      '\\' :: 'g' :: '<' :: (acc.reverse ++ gsubA (some []) rest) := rfl

/-- Unfolding of `gsubA` in the pending state at a generic character. -/
theorem gsubA_some_cons (acc : List Char) (c : Char) (cs : List Char)
    (h : ¬(c = '\\' ∧ ∃ r, cs = 'g' :: '<' :: r)) :
    gsubA (some acc) (c :: cs) =
      if c.isDigit then gsubA (some (c :: acc)) cs
      else if c = '>' then
        if acc.isEmpty then '\\' :: 'g' :: '<' :: '>' :: gsubA none cs
        else '$' :: '\x7b' :: (acc.reverse ++ '\x7d' :: gsubA none cs)
      else '\\' :: 'g' :: '<' :: (acc.reverse ++ c :: gsubA none cs) := by
  rw [gsubA.eq_def]
  split
  · rename_i hob heq
    simp at hob
  · rename_i hob heq
    simp at hob
  · rename_i hob heq
    simp at hob
  · rename_i hob heq
    simp at heq
  · rename_i hob heq
    injection heq with e1 e2
    exact absurd ⟨e1, _, e2⟩ h
  · rename_i hob heq
    injection hob with e0
    injection heq with e1 e2
    subst e0
    subst e1
    subst e2
    rfl

/-- Characters other than a backslash never start a match, so `gsub` copies
any backslash-free prefix unchanged. -/
theorem gsub_no_bs_append (a t : List Char) (h : ∀ c ∈ a, c ≠ '\\') :
    gsub (a ++ t) = a ++ gsub t := by
  induction a with
  | nil => rfl
  | cons c a ih =>
    have hc : c ≠ '\\' := h c (by simp)
    rw [List.cons_append, gsub_cons c (a ++ t) (by rintro ⟨h1, _⟩; exact hc h1)]
    rw [ih (fun x hx => h x (by simp [hx]))]
    rfl

/-- Behaviour of the pending state of the scanner: the digit run right after
the consumed `\g<` decides between a replacement and a verbatim fallback. -/
theorem gsubA_some_spec (rest : List Char) : ∀ acc : List Char,
    (∀ ds r2, takeDigits rest = (ds, '>' :: r2) → acc.reverse ++ ds ≠ [] →
      gsubA (some acc) rest = '$' :: '\x7b' :: (acc.reverse ++ ds ++ '\x7d' :: gsubA none r2)) ∧
    (∀ ds r, takeDigits rest = (ds, r) → (∀ r2, r = '>' :: r2 → acc.reverse ++ ds = []) →
      gsubA (some acc) rest = '\\' :: 'g' :: '<' :: (acc.reverse ++ ds ++ gsubA none r)) := by
  induction rest with
  | nil =>
    intro acc
    constructor
    · intro ds r2 h
      simp [takeDigits] at h
    · intro ds r h _
      rw [takeDigits] at h
      injection h with h1 h2
      subst h1 h2
      simp [gsubA]
  | cons c cs ih =>
    intro acc
    by_cases hsh : c = '\\' ∧ ∃ r3, cs = 'g' :: '<' :: r3
    · obtain ⟨hc, r3, hr3⟩ := hsh
      subst hc hr3
      have htd : takeDigits ('\\' :: 'g' :: '<' :: r3) = ([], '\\' :: 'g' :: '<' :: r3) := by
        simp [takeDigits]
      constructor
      · intro ds r2 h
        rw [htd] at h
        injection h with h1 h2
        exact absurd h2.symm (by simp)
      · intro ds r h _
        rw [htd] at h
        injection h with h1 h2
        subst h1 h2
        rw [gsubA_some_ghead]
        have : gsubA none ('\\' :: 'g' :: '<' :: r3) = gsubA (some []) r3 := rfl
        simp [this]
    · by_cases hd : c.isDigit
      · have htd : takeDigits (c :: cs) = (c :: (takeDigits cs).1, (takeDigits cs).2) := by
          simp [takeDigits, hd]
        have hstep : gsubA (some acc) (c :: cs) = gsubA (some (c :: acc)) cs := by
          rw [gsubA_some_cons acc c cs hsh, if_pos hd]
        constructor
        · intro ds r2 h _
          rw [htd] at h
          injection h with h1 h2
          have hih := (ih (c :: acc)).1 (takeDigits cs).1 r2 (by rw [← h2])
          have hne : (c :: acc).reverse ++ (takeDigits cs).1 ≠ [] := by simp
          rw [hstep, hih hne, ← h1]
          simp
        · intro ds r h hg
          rw [htd] at h
          injection h with h1 h2
          have hg2 : ∀ r2, (takeDigits cs).2 = '>' :: r2 → (c :: acc).reverse ++ (takeDigits cs).1 = [] := by
            intro r2 hr2
            have := hg r2 (by rw [← h2, hr2])
            rw [← h1] at this
            simp at this
          have hih := (ih (c :: acc)).2 (takeDigits cs).1 (takeDigits cs).2 rfl hg2
          rw [hstep, hih, ← h1, ← h2]
          simp
      · have htd : takeDigits (c :: cs) = ([], c :: cs) := by
          simp [takeDigits, hd]
        by_cases hgt : c = '>'
        · subst hgt
          constructor
          · intro ds r2 h hne
            rw [htd] at h
            injection h with h1 h2
            injection h2 with h3 h4
            subst h1 h4
            have hacc : acc ≠ [] := by
              intro hcon
              subst hcon
              simp at hne
            have haccE : acc.isEmpty = false := by
              simpa using hacc
            rw [gsubA_some_cons acc '>' cs hsh, if_neg (by simp [hd]), if_pos rfl, haccE]
            simp
          · intro ds r h hg
            rw [htd] at h
            injection h with h1 h2
            subst h1 h2
            have hacc : acc = [] := by
              have := hg cs rfl
              simpa using this
            subst hacc
            rw [gsubA_some_cons [] '>' cs hsh, if_neg (by simp [hd]), if_pos rfl]
            have hne2 : gsubA none ('>' :: cs) = '>' :: gsubA none cs :=
              gsub_cons '>' cs (by rintro ⟨h1, _⟩; exact absurd h1 (by decide))
            simp [hne2]
        · constructor
          · intro ds r2 h _
            rw [htd] at h
            injection h with h1 h2
            injection h2 with h3
            exact absurd h3 hgt
          · intro ds r h _
            rw [htd] at h
            injection h with h1 h2
            subst h1 h2
            rw [gsubA_some_cons acc c cs hsh, if_neg (by simpa using hd), if_neg hgt]
            have hcc : gsubA none (c :: cs) = c :: gsubA none cs := gsub_cons c cs hsh
            simp [hcc]

/-- Unfolding of `gsub` at a successful match: a literal `\g<`, a nonempty
digit run and `>` produce `${digits}` and scanning resumes after the `>`. -/
theorem gsub_pos (rest r2 : List Char) (d : Char) (ds : List Char)
    (h : takeDigits rest = (d :: ds, '>' :: r2)) :
    gsub ('\\' :: 'g' :: '<' :: rest) = '$' :: '\x7b' :: ((d :: ds) ++ '\x7d' :: gsub r2) := by
  have h0 : gsub ('\\' :: 'g' :: '<' :: rest) = gsubA (some []) rest := rfl
  have := (gsubA_some_spec rest []).1 (d :: ds) r2 h (by simp)
  rw [h0, this]
  rfl

/-- Unfolding of `gsub` at a failed match: when no nonempty digit run
followed by `>` follows the `\g<`, the backslash is copied and scanning
resumes at the `g`. -/
theorem gsub_neg (rest : List Char)
    (h : ∀ (d : Char) (ds r2 : List Char), takeDigits rest ≠ (d :: ds, '>' :: r2)) :
    gsub ('\\' :: 'g' :: '<' :: rest) = '\\' :: gsub ('g' :: '<' :: rest) := by
  have h0 : gsub ('\\' :: 'g' :: '<' :: rest) = gsubA (some []) rest := rfl
  have hg : ∀ r2, (takeDigits rest).2 = '>' :: r2 → ([] : List Char).reverse ++ (takeDigits rest).1 = [] := by
    intro r2 hr2
    cases hds : (takeDigits rest).1 with
    | nil => simp
    | cons d ds =>
      exact absurd (by rw [← hds, ← hr2]) (h d ds r2)
  have := (gsubA_some_spec rest []).2 (takeDigits rest).1 (takeDigits rest).2 rfl hg
  rw [h0, this]
  have hdig : ∀ c ∈ (takeDigits rest).1, c ≠ '\\' := by
    intro c hc hcon
    have := takeDigits_fst_digits rest c hc
    rw [hcon] at this
    exact absurd this (by decide)
  have hsplit : gsub ('g' :: '<' :: rest) = 'g' :: '<' :: ((takeDigits rest).1 ++ gsub (takeDigits rest).2) := by
    have e1 : gsub ('g' :: '<' :: rest) = 'g' :: gsub ('<' :: rest) :=
      gsub_cons 'g' ('<' :: rest) (by rintro ⟨h1, _⟩; exact absurd h1 (by decide))
    have e2 : gsub ('<' :: rest) = '<' :: gsub rest :=
      gsub_cons '<' rest (by rintro ⟨h1, _⟩; exact absurd h1 (by decide))
    have e3 : gsub rest = (takeDigits rest).1 ++ gsub (takeDigits rest).2 := by
      conv_lhs => rw [← takeDigits_append rest]
      exact gsub_no_bs_append (takeDigits rest).1 (takeDigits rest).2 hdig
    rw [e1, e2, e3]
  rw [hsplit]
  simp [gsub]

/-- A digit character is not a backslash. -/
theorem digit_ne_bs {c : Char} (h : c.isDigit) : c ≠ '\\' := by
  intro e
  rw [e] at h
  exact absurd h (by decide)

/-- A digit character is not a closing angle bracket. -/
theorem digit_ne_gt {c : Char} (h : c.isDigit) : c ≠ '>' := by
  intro e
  rw [e] at h
  exact absurd h (by decide)

/-- The head of `gsub` on a nonempty list is the original head or `$`. -/
theorem gsub_head (c : Char) (cs : List Char) :
    (∃ t, gsub (c :: cs) = c :: t) ∨ (∃ t, gsub (c :: cs) = '$' :: t) := by
  by_cases hsh : c = '\\' ∧ ∃ r3, cs = 'g' :: '<' :: r3
  · obtain ⟨hc, r3, hr3⟩ := hsh
    subst hc hr3
    rcases htd : takeDigits r3 with ⟨D, R⟩
    rcases D with _ | ⟨d, D1⟩
    · left
      refine ⟨_, gsub_neg r3 ?_⟩
      intro d ds r2 hcon
      rw [htd] at hcon
      injection hcon with e1 _
      simp at e1
    · rcases R with _ | ⟨r0, R1⟩
      · left
        refine ⟨_, gsub_neg r3 ?_⟩
        intro d2 ds r2 hcon
        rw [htd] at hcon
        injection hcon with _ e2
        simp at e2
      · by_cases hr0 : r0 = '>'
        · subst hr0
          right
          exact ⟨_, gsub_pos r3 R1 d D1 htd⟩
        · left
          refine ⟨_, gsub_neg r3 ?_⟩
          intro d2 ds r2 hcon
          rw [htd] at hcon
          injection hcon with _ e2
          injection e2 with e3 _
          exact hr0 e3
  · exact Or.inl ⟨gsub cs, gsub_cons c cs hsh⟩

/-- When the input does not start with `g<`, neither does the `gsub` image. -/
theorem gsub_not_ghead (cs : List Char) (h : ∀ r, cs ≠ 'g' :: '<' :: r) :
    ∀ r, gsub cs ≠ 'g' :: '<' :: r := by
  intro r hcon
  rcases cs with _ | ⟨c, cs1⟩
  · rw [gsub_nil] at hcon
    simp at hcon
  · by_cases hc : c = 'g'
    · subst hc
      have hng : ¬(('g' : Char) = '\\' ∧ ∃ r3, cs1 = 'g' :: '<' :: r3) := by
        rintro ⟨e, _⟩
        exact absurd e (by decide)
      rw [gsub_cons 'g' cs1 hng] at hcon
      injection hcon with _ e2
      rcases cs1 with _ | ⟨c2, cs2⟩
      · rw [gsub_nil] at e2
        simp at e2
      · rcases gsub_head c2 cs2 with ⟨t, ht⟩ | ⟨t, ht⟩
        · rw [ht] at e2
          injection e2 with e3 _
          subst e3
          exact h cs2 rfl
        · rw [ht] at e2
          injection e2 with e3 _
          exact absurd e3 (by decide)
    · rcases gsub_head c cs1 with ⟨t, ht⟩ | ⟨t, ht⟩
      · rw [ht] at hcon
        injection hcon with e1 _
        exact hc e1
      · rw [ht] at hcon
        injection hcon with e1 _
        exact absurd e1 (by decide)

/-- Splitting an equation at the first backslash: a backslash-free block on
the right forces the left occurrence of the backslash to lie beyond it. -/
theorem bs_split (q : List Char) : ∀ u t r : List Char, (∀ c ∈ q, c ≠ '\\') →
    u ++ '\\' :: t = q ++ r → ∃ w, u = q ++ w ∧ w ++ '\\' :: t = r := by
  induction q with
  | nil =>
    intro u t r _ heq
    exact ⟨u, by simp, by simpa using heq⟩
  | cons a q1 ih =>
    intro u t r hq heq
    rcases u with _ | ⟨b, u1⟩
    · simp at heq
      exact absurd heq.1.symm (hq a (by simp))
    · rw [List.cons_append, List.cons_append] at heq
      injection heq with e1 e2
      subst e1
      obtain ⟨w, hw1, hw2⟩ := ih u1 t r (fun c hc => hq c (by simp [hc])) e2
      exact ⟨w, by simp [hw1], hw2⟩

/-- After a failed match, the digit run that follows the `\g<` in the output
still fails to match: rewriting further right cannot create a match here. -/
theorem gsub_no_new_match (rest : List Char)
    (h : ∀ (d : Char) (ds r2 : List Char), takeDigits rest ≠ (d :: ds, '>' :: r2)) :
    ∀ (d : Char) (ds r2 : List Char), takeDigits (gsub rest) ≠ (d :: ds, '>' :: r2) := by
  intro d ds r2 hcon
  have hsplit : gsub rest = (takeDigits rest).1 ++ gsub (takeDigits rest).2 := by
    conv_lhs => rw [← takeDigits_append rest]
    exact gsub_no_bs_append _ _ (fun c hc => digit_ne_bs (takeDigits_fst_digits rest c hc))
  rcases hR : (takeDigits rest).2 with _ | ⟨c, R1⟩
  · rw [hR, gsub_nil, List.append_nil] at hsplit
    rw [hsplit] at hcon
    have : takeDigits (takeDigits rest).1 = ((takeDigits rest).1, []) := by
      have := takeDigits_exact (takeDigits rest).1 [] (takeDigits_fst_digits rest) (by simp)
      simpa using this
    rw [this] at hcon
    injection hcon with _ e2
    simp at e2
  · have hcnd : c.isDigit = false := takeDigits_snd_head rest c R1 hR
    have hne : (takeDigits rest).1 = [] ∨ c ≠ '>' := by
      rcases hD : (takeDigits rest).1 with _ | ⟨d0, D0⟩
      · exact Or.inl rfl
      · refine Or.inr fun hgt => ?_
        subst hgt
        exact h d0 D0 R1 (by rw [← hD, ← hR])
    rw [hR] at hsplit
    rcases gsub_head c R1 with ⟨t, ht⟩ | ⟨t, ht⟩
    · have htdg : takeDigits ((takeDigits rest).1 ++ gsub (c :: R1)) =
          ((takeDigits rest).1, gsub (c :: R1)) := by
        refine takeDigits_exact _ _ (takeDigits_fst_digits rest) ?_
        intro c2 rr hrr
        rw [ht] at hrr
        injection hrr with e1 _
        rw [← e1]
        exact hcnd
      rw [hsplit, htdg] at hcon
      injection hcon with e1 e2
      rw [ht] at e2
      injection e2 with e3 _
      rcases hne with hne | hne
      · rw [hne] at e1
        simp at e1
      · exact hne e3
    · have htdg : takeDigits ((takeDigits rest).1 ++ gsub (c :: R1)) =
          ((takeDigits rest).1, gsub (c :: R1)) := by
        refine takeDigits_exact _ _ (takeDigits_fst_digits rest) ?_
        intro c2 rr hrr
        rw [ht] at hrr
        injection hrr with e1 _
        rw [← e1]
        decide
      rw [hsplit, htdg] at hcon
      injection hcon with e1 e2
      rw [ht] at e2
      injection e2 with e3 _
      exact absurd e3 (by decide)
/-- Either the text right after a `\g<` matches (a nonempty digit run then
`>`), or no instantiation of the pattern matches there. -/
theorem match_or_not (r3 : List Char) :
    (∃ d D1 R1, takeDigits r3 = (d :: D1, '>' :: R1)) ∨
    (∀ (d : Char) (ds r2 : List Char), takeDigits r3 ≠ (d :: ds, '>' :: r2)) := by
  rcases hD : (takeDigits r3).1 with _ | ⟨d, D1⟩
  · refine Or.inr fun d ds r2 hcon => ?_
    have h1 : (takeDigits r3).1 = d :: ds := by rw [hcon]
    rw [hD] at h1
    simp at h1
  · rcases hR : (takeDigits r3).2 with _ | ⟨r0, R1⟩
    · refine Or.inr fun d2 ds r2 hcon => ?_
      have h2 : (takeDigits r3).2 = '>' :: r2 := by rw [hcon]
      rw [hR] at h2
      simp at h2
    · by_cases hr0 : r0 = '>'
      · subst hr0
        refine Or.inl ⟨d, D1, R1, ?_⟩
        rw [← hD, ← hR]
      · refine Or.inr fun d2 ds r2 hcon => ?_
        have h2 : (takeDigits r3).2 = '>' :: r2 := by rw [hcon]
        rw [hR] at h2
        injection h2 with e3 _
        exact hr0 e3

/-- Helper for a `\g<` seen through a nonempty prefix `u`: the prefix must
itself provide the `g<` of the scanned occurrence. -/
theorem ghead_surgery (u1 r3 : List Char) (t : List Char)
    (h : u1 ++ '\\' :: t = 'g' :: '<' :: r3) :
    ∃ u3, u1 = 'g' :: '<' :: u3 ∧ u3 ++ '\\' :: t = r3 := by
  rcases u1 with _ | ⟨u10, u2⟩
  · simp at h
  · injection h with f1 f2
    subst f1
    rcases u2 with _ | ⟨u20, u3⟩
    · simp at f2
    · injection f2 with g1 g2
      subst g1
      exact ⟨u3, rfl, g2⟩

/-- Main absence lemma: the output of `gsub` never contains a literal
occurrence of `\g<` followed by a nonempty digit run and `>`. -/
theorem gsub_no_gref_aux : ∀ n : Nat, ∀ l : List Char, l.length ≤ n →
    ∀ u ds v : List Char, ds ≠ [] → (∀ c ∈ ds, c.isDigit) →
    gsub l ≠ u ++ '\\' :: 'g' :: '<' :: (ds ++ '>' :: v) := by
  intro n
  induction n with
  | zero =>
    intro l hl u ds v hne hds hcon
    have hl0 : l = [] := List.eq_nil_of_length_eq_zero (Nat.le_zero.mp hl)
    subst hl0
    rw [gsub_nil] at hcon
    simp at hcon
  | succ n ih =>
    intro l hl u ds v hne hds hcon
    rcases l with _ | ⟨c, cs⟩
    · rw [gsub_nil] at hcon
      simp at hcon
    · by_cases hsh : c = '\\' ∧ ∃ r3, cs = 'g' :: '<' :: r3
      · obtain ⟨hc, r3, hr3⟩ := hsh
        subst hc hr3
        have hlen3 : r3.length ≤ n := by
          simp at hl
          omega
        rcases match_or_not r3 with ⟨d, D1, R1, htd⟩ | hno
        · rw [gsub_pos r3 R1 d D1 htd] at hcon
          have hq : ('$' :: '\x7b' :: ((d :: D1) ++ '\x7d' :: gsub R1)) =
              ('$' :: '\x7b' :: (d :: D1) ++ ['\x7d']) ++ gsub R1 := by
            simp
          rw [hq] at hcon
          have hdig : ∀ c2 ∈ (d :: D1 : List Char), c2.isDigit := by
            intro c2 hc2
            exact takeDigits_fst_digits r3 c2 (by rw [htd]; exact hc2)
          have hqbs : ∀ c2 ∈ ('$' :: '\x7b' :: (d :: D1) ++ ['\x7d'] : List Char), c2 ≠ '\\' := by
            intro c2 hc2
            rcases List.mem_cons.mp hc2 with h1 | hc3
            · subst h1; decide
            · rcases List.mem_cons.mp hc3 with h1 | hc4
              · subst h1; decide
              · rcases List.mem_append.mp hc4 with h1 | h1
                · exact digit_ne_bs (hdig c2 h1)
                · rw [List.mem_singleton.mp h1]; decide
          obtain ⟨w, _, hw2⟩ :=
            bs_split _ u ('g' :: '<' :: (ds ++ '>' :: v)) (gsub R1) hqbs hcon.symm
          have hR1len : R1.length ≤ n := by
            have happ := takeDigits_append r3
            rw [htd] at happ
            have := congrArg List.length happ
            simp at this
            omega
          exact ih R1 hR1len w ds v hne hds hw2.symm
        · rw [gsub_neg r3 hno] at hcon
          have e2 : gsub ('g' :: '<' :: r3) = 'g' :: '<' :: gsub r3 := by
            rw [gsub_cons 'g' ('<' :: r3) (by rintro ⟨h1, _⟩; exact absurd h1 (by decide)),
              gsub_cons '<' r3 (by rintro ⟨h1, _⟩; exact absurd h1 (by decide))]
          rw [e2] at hcon
          rcases u with _ | ⟨u0, u1⟩
          · simp at hcon
            have htdg : takeDigits (gsub r3) = (ds, '>' :: v) := by
              rw [hcon]
              refine takeDigits_exact ds ('>' :: v) hds ?_
              intro c2 rr hrr
              injection hrr with e3 _
              rw [← e3]
              decide
            rcases ds with _ | ⟨d0, ds1⟩
            · exact hne rfl
            · exact gsub_no_new_match r3 hno d0 ds1 v htdg
          · injection hcon with e0 ecs
            obtain ⟨u3, _, g2⟩ :=
              ghead_surgery u1 (gsub r3) ('g' :: '<' :: (ds ++ '>' :: v)) ecs.symm
            exact ih r3 hlen3 u3 ds v hne hds g2.symm
      · rw [gsub_cons c cs hsh] at hcon
        rcases u with _ | ⟨u0, u1⟩
        · injection hcon with e1 e2
          have hcs : ∀ r, cs ≠ 'g' :: '<' :: r := fun r hr => hsh ⟨e1, r, hr⟩
          exact gsub_not_ghead cs hcs _ e2
        · injection hcon with e1 e2
          exact ih cs (by simp at hl; omega) u1 ds v hne hds e2

/-- The output of `gsub` never contains a literal `\g<N>` (backslash, `g`,
`<`, a nonempty run of digits, `>`). -/
theorem gsub_no_gref (l u ds v : List Char) (hne : ds ≠ [])
    (hds : ∀ c ∈ ds, c.isDigit) :
    gsub l ≠ u ++ '\\' :: 'g' :: '<' :: (ds ++ '>' :: v) :=
  gsub_no_gref_aux l.length l le_rfl u ds v hne hds

/-- Main presence lemma: each occurrence of `\g<N>` in the input leaves a
`${N}` with the same digits in the output of `gsub`. -/
theorem gsub_decomp_aux : ∀ n : Nat, ∀ l u ds v : List Char, l.length ≤ n →
    l = u ++ '\\' :: 'g' :: '<' :: (ds ++ '>' :: v) → ds ≠ [] → (∀ c ∈ ds, c.isDigit) →
    ∃ a b, gsub l = a ++ '$' :: '\x7b' :: (ds ++ '\x7d' :: b) := by
  intro n
  induction n with
  | zero =>
    intro l u ds v hl heq hne hds
    rw [heq] at hl
    simp at hl
  | succ n ih =>
    intro l u ds v hl heq hne hds
    rcases u with _ | ⟨c, u1⟩
    · simp at heq
      subst heq
      have htd : takeDigits (ds ++ '>' :: v) = (ds, '>' :: v) := by
        refine takeDigits_exact ds ('>' :: v) hds ?_
        intro c2 rr hrr
        injection hrr with e3 _
        rw [← e3]
        decide
      rcases ds with _ | ⟨d0, ds1⟩
      · exact absurd rfl hne
      · refine ⟨[], gsub v, ?_⟩
        rw [gsub_pos (d0 :: ds1 ++ '>' :: v) v d0 ds1 htd]
        simp
    · rw [List.cons_append] at heq
      subst heq
      have hlen1 : (u1 ++ '\\' :: 'g' :: '<' :: (ds ++ '>' :: v)).length ≤ n := by
        simp at hl ⊢
        omega
      by_cases hsh : c = '\\' ∧ ∃ r3,
          u1 ++ '\\' :: 'g' :: '<' :: (ds ++ '>' :: v) = 'g' :: '<' :: r3
      · obtain ⟨hc, r3, hr3⟩ := hsh
        subst hc
        obtain ⟨u3, hu3, g2⟩ := ghead_surgery u1 r3 ('g' :: '<' :: (ds ++ '>' :: v)) hr3
        have hr3len : r3.length ≤ n := by
          rw [← g2]
          rw [hu3] at hlen1
          simp at hlen1 ⊢
          omega
        rcases match_or_not r3 with ⟨d, D1, R1, htd⟩ | hno
        · rw [hr3, gsub_pos r3 R1 d D1 htd]
          have hr3split : (d :: D1) ++ '>' :: R1 = r3 := by
            have happ := takeDigits_append r3
            rw [htd] at happ
            exact happ
          have hdig : ∀ c2 ∈ (d :: D1 : List Char), c2.isDigit := by
            intro c2 hc2
            exact takeDigits_fst_digits r3 c2 (by rw [htd]; exact hc2)
          have hqbs : ∀ c2 ∈ ((d :: D1) ++ ['>'] : List Char), c2 ≠ '\\' := by
            intro c2 hc2
            rcases List.mem_append.mp hc2 with h1 | h1
            · exact digit_ne_bs (hdig c2 h1)
            · rw [List.mem_singleton.mp h1]; decide
          have heq2 : u3 ++ '\\' :: ('g' :: '<' :: (ds ++ '>' :: v)) =
              ((d :: D1) ++ ['>']) ++ R1 := by
            calc u3 ++ '\\' :: ('g' :: '<' :: (ds ++ '>' :: v)) = r3 := g2
              _ = (d :: D1) ++ '>' :: R1 := hr3split.symm
              _ = ((d :: D1) ++ ['>']) ++ R1 := by simp
          obtain ⟨w, _, hw2⟩ := bs_split _ u3 _ R1 hqbs heq2
          have hR1len : R1.length ≤ n := by
            have hle := congrArg List.length hr3split
            simp at hle
            omega
          obtain ⟨a, b, hab⟩ := ih R1 w ds v hR1len hw2.symm hne hds
          refine ⟨'$' :: '\x7b' :: ((d :: D1) ++ ['\x7d']) ++ a, b, ?_⟩
          rw [hab]
          simp
        · rw [hr3, gsub_neg r3 hno]
          have e2 : gsub ('g' :: '<' :: r3) = 'g' :: '<' :: gsub r3 := by
            rw [gsub_cons 'g' ('<' :: r3) (by rintro ⟨h1, _⟩; exact absurd h1 (by decide)),
              gsub_cons '<' r3 (by rintro ⟨h1, _⟩; exact absurd h1 (by decide))]
          rw [e2]
          obtain ⟨a, b, hab⟩ := ih r3 u3 ds v hr3len g2.symm hne hds
          refine ⟨'\\' :: 'g' :: '<' :: a, b, ?_⟩
          rw [hab]
          simp
      · rw [gsub_cons c _ hsh]
        obtain ⟨a, b, hab⟩ :=
          ih (u1 ++ '\\' :: 'g' :: '<' :: (ds ++ '>' :: v)) u1 ds v hlen1 rfl hne hds
        refine ⟨c :: a, b, ?_⟩
        rw [hab]
        simp

/-- Each occurrence of `\g<N>` in the input leaves a `${N}` with the same
digits somewhere in the output of `gsub`. -/
theorem gsub_decomp (l u ds v : List Char)
    (heq : l = u ++ '\\' :: 'g' :: '<' :: (ds ++ '>' :: v))
    (hne : ds ≠ []) (hds : ∀ c ∈ ds, c.isDigit) :
    ∃ a b, gsub l = a ++ '$' :: '\x7b' :: (ds ++ '\x7d' :: b) :=
  gsub_decomp_aux l.length l u ds v le_rfl heq hne hds

/-- Python `'\n'.join`: concatenates the given lines with a single `\n`
between consecutive lines (lines 41-42 of the source). -/
def joinNL : List (List Char) → List Char
  | [] => []
  | [x] => x
  | x :: xs => x ++ '\n' :: joinNL xs

/-- Single unfolding of `splitlines` on a nonempty list. -/
theorem splitlines_cons_eq (c : Char) (rest : List Char) :
    splitlines (c :: rest) =
      if c = '\r' then
        match rest with
        | '\n' :: rest2 => [] :: splitlines rest2
        | r => [] :: splitlines r
      else if isLineBreak c then
        [] :: splitlines rest
      else
        consFirst c (splitlines rest) := by
  rw [splitlines.eq_def]

/-- Unfolding of `splitlines` at a line feed. -/
theorem splitlines_nl (rest : List Char) :
    splitlines ('\n' :: rest) = [] :: splitlines rest := by
  rw [splitlines_cons_eq, if_neg (by decide), if_pos (by decide)]

/-- Unfolding of `splitlines` at a `\r\n` pair: one single break. -/
theorem splitlines_crnl (rest : List Char) :
    splitlines ('\r' :: '\n' :: rest) = [] :: splitlines rest := by
  rw [splitlines_cons_eq, if_pos rfl]
  rfl

/-- Unfolding of `splitlines` at a line-break character other than `\r`. -/
theorem splitlines_break (c : Char) (rest : List Char) (hb : isLineBreak c = true)
    (hcr : c ≠ '\r') :
    splitlines (c :: rest) = [] :: splitlines rest := by
  rw [splitlines_cons_eq, if_neg hcr, if_pos hb]

/-- Unfolding of `splitlines` at a `\r` that is not followed by `\n`. -/
theorem splitlines_cr (r0 : Char) (rest : List Char) (h : r0 ≠ '\n') :
    splitlines ('\r' :: r0 :: rest) = [] :: splitlines (r0 :: rest) := by
  rw [splitlines_cons_eq, if_pos rfl]
  split
  · rename_i heq
    injection heq with e1 _
    exact absurd e1 h
  · rfl

/-- Unfolding of `splitlines` at a character that is not a line break. -/
theorem splitlines_chr (c : Char) (rest : List Char) (hb : isLineBreak c = false) :
    splitlines (c :: rest) = consFirst c (splitlines rest) := by
  have hcr : c ≠ '\r' := by
    intro e
    rw [e] at hb
    exact absurd hb (by decide)
  rw [splitlines_cons_eq, if_neg hcr, if_neg (by simp [hb])]

/-- A nonempty break-free list is a single line. -/
theorem splitlines_single (l : List Char) (hb : ∀ c ∈ l, isLineBreak c = false)
    (hne : l ≠ []) : splitlines l = [l] := by
  induction l with
  | nil => exact absurd rfl hne
  | cons c rest ih =>
    rw [splitlines_chr c rest (hb c (by simp))]
    by_cases hr : rest = []
    · subst hr
      rfl
    · rw [ih (fun c2 hc2 => hb c2 (by simp [hc2])) hr]
      rfl

/-- Splitting a break-free line glued before `\n` peels off that line. -/
theorem splitlines_append_nl (a t : List Char) (hb : ∀ c ∈ a, isLineBreak c = false) :
    splitlines (a ++ '\n' :: t) = a :: splitlines t := by
  induction a with
  | nil => exact splitlines_nl t
  | cons c a1 ih =>
    rw [List.cons_append, splitlines_chr c (a1 ++ '\n' :: t) (hb c (by simp))]
    rw [ih (fun c2 hc2 => hb c2 (by simp [hc2]))]
    rfl

/-- Round trip: joining nonempty break-free lines with `\n` and splitting
again recovers exactly the original lines. -/
theorem joinNL_splitlines (L : List (List Char))
    (h : ∀ l ∈ L, l ≠ [] ∧ ∀ c ∈ l, isLineBreak c = false) :
    splitlines (joinNL L) = L := by
  induction L with
  | nil => rfl
  | cons x xs ih =>
    rcases xs with _ | ⟨y, ys⟩
    · exact splitlines_single x (h x (by simp)).2 (h x (by simp)).1
    · have hjoin : joinNL (x :: y :: ys) = x ++ '\n' :: joinNL (y :: ys) := rfl
      rw [hjoin, splitlines_append_nl x (joinNL (y :: ys)) (h x (by simp)).2]
      rw [ih (fun l hl => h l (by simp [hl]))]

/-- Every line produced by `splitlines` is free of line-break characters. -/
theorem splitlines_no_break_aux : ∀ n : Nat, ∀ cs : List Char, cs.length ≤ n →
    ∀ l ∈ splitlines cs, ∀ c ∈ l, isLineBreak c = false := by
  intro n
  induction n with
  | zero =>
    intro cs hcs l hl
    have h0 : cs = [] := List.eq_nil_of_length_eq_zero (Nat.le_zero.mp hcs)
    subst h0
    simp [splitlines] at hl
  | succ n ih =>
    intro cs hcs l hl c hc
    rcases cs with _ | ⟨c0, rest⟩
    · simp [splitlines] at hl
    · by_cases h1 : c0 = '\r'
      · subst h1
        rcases rest with _ | ⟨r0, rest1⟩
        · have hone : splitlines ['\r'] = [[]] := rfl
          rw [hone] at hl
          simp at hl
          subst hl
          simp at hc
        · by_cases h2 : r0 = '\n'
          · subst h2
            rw [splitlines_crnl rest1] at hl
            rcases List.mem_cons.mp hl with hl2 | hl2
            · subst hl2
              simp at hc
            · exact ih rest1 (by simp at hcs; omega) l hl2 c hc
          · rw [splitlines_cr r0 rest1 h2] at hl
            rcases List.mem_cons.mp hl with hl2 | hl2
            · subst hl2
              simp at hc
            · exact ih (r0 :: rest1) (by simp at hcs ⊢; omega) l hl2 c hc
      · by_cases hb : isLineBreak c0
        · rw [splitlines_break c0 rest hb h1] at hl
          rcases List.mem_cons.mp hl with hl2 | hl2
          · subst hl2
            simp at hc
          · exact ih rest (by simp at hcs; omega) l hl2 c hc
        · rw [splitlines_chr c0 rest (by simpa using hb)] at hl
          rcases hsr : splitlines rest with _ | ⟨l0, ls⟩
          · rw [hsr] at hl
            simp [consFirst] at hl
            subst hl
            simp at hc
            subst hc
            simpa using hb
          · rw [hsr] at hl
            simp only [consFirst] at hl
            rcases List.mem_cons.mp hl with hl2 | hl2
            · subst hl2
              rcases List.mem_cons.mp hc with hc2 | hc2
              · subst hc2
                simpa using hb
              · exact ih rest (by simp at hcs; omega) l0 (by rw [hsr]; simp) c hc2
            · exact ih rest (by simp at hcs; omega) l (by rw [hsr]; simp [hl2]) c hc

/-- Every line produced by `splitlines` is free of line-break characters. -/
theorem splitlines_no_break (cs : List Char) :
    ∀ l ∈ splitlines cs, ∀ c ∈ l, isLineBreak c = false :=
  splitlines_no_break_aux cs.length cs le_rfl

/-- Part of the emitted script template before the first `%s` (the file
list), lines 45-59 of the source. The heredoc marker line ends this part. -/
def tmplA : String :=
  "#!/bin/sh -e\n#\n# This script performs domain substitution on the Chromium source files.\n#\n# Generated by make_domsub_script.py, part of the ungoogled-chromium project:\n# https://github.com/ungoogled-software/ungoogled-chromium.git\n#\n\n# Check that we are inside the Chromium source tree\ntest -f build/config/compiler/BUILD.gn\n\n# These filenames may contain spaces and/or other unusual characters\nprint_file_list() \x7b\n\tcat <<'__END__'\n"

/-- Part of the template between the file list and the `%d` file count,
lines 59-68 of the source. -/
def tmplB : String :=
  "\n__END__\n\x7d\n\necho \"Creating backup archive ...\"\n\nbackup=domain-substitution.orig.tar\nprint_file_list | tar cf $backup --verbatim-files-from --files-from=-\n\necho \"Applying ungoogled-chromium domain substitution to "

/-- Part of the template between the `%d` file count and the `%s` holding
the substitution statements, lines 68-71 of the source (the `\\n` of the
source is a literal backslash and `n` in the emitted text). -/
def tmplC : String :=
  " files ...\"\n\nprint_file_list | xargs -d '\\n' perl -0777 -C0 -pwi -e '\n"

/-- Part of the template after the substitution statements, lines 71-75. -/
def tmplD : String :=
  "\n'\n\n# end\n"

/-- Python `Path.read_text()`: the decoded contents with universal-newline
translation applied. -/
def readText (raw : String) : List Char :=
  univNewlines raw.data

/-- Lines of a list file after `read_text().splitlines()` and
`filter(len, ...)` (lines 35-36 of the source): the empty lines are dropped,
all others kept in order. -/
def nonblankLines (raw : String) : List (List Char) :=
  (splitlines (readText raw)).filter (fun l => !l.isEmpty)

/-- The full text written to the output file (lines 35-75 of the source):
the fixed template with the file list, the file count and the translated
Perl substitution statements interpolated. -/
def outScript (regex_text files_text : String) : String :=
  let regex_list := nonblankLines regex_text
  let files_list := nonblankLines files_text
  let perl_replace_list := regex_list.map fun x => "s#".data ++ gsub x ++ "#g".data
  let files_list_str := joinNL files_list
  let perl_replace_list_str := joinNL (perl_replace_list.map fun x => "    ".data ++ x ++ [';'])
  ⟨tmplA.data ++ files_list_str ++ tmplB.data ++ (Nat.repr files_list.length).data ++
    tmplC.data ++ perl_replace_list_str ++ tmplD.data⟩

/-- The generator `make_domain_substitution_script(regex_path, files_path,
output_path)` (lines 16-75 of the source) as a state transformer on the
filesystem: it returns the resulting filesystem and the raised error, if
any. The three existence checks happen in source order before anything is
read or written; on success the script text is written at `output_path`. -/
def make_domain_substitution_script (fs : FS) (regex_path files_path output_path : String) :
    FS × Option FsError :=
  match fs regex_path with
  | none => (fs, some (FsError.notFound regex_path))
  | some regex_text =>
    match fs files_path with
    | none => (fs, some (FsError.notFound files_path))
    | some files_text =>
      match fs output_path with
      | some _ => (fs, some (FsError.alreadyExists output_path))
      | none =>
        (fun p => if p = output_path then some (outScript regex_text files_text) else fs p, none)

/-- Unfolding of the generator when the regex list is missing. -/
theorem make_err_regex (fs : FS) (r f o : String) (h : fs r = none) :
    make_domain_substitution_script fs r f o = (fs, some (FsError.notFound r)) := by
  unfold make_domain_substitution_script
  rw [h]

/-- Unfolding of the generator when the files list is missing. -/
theorem make_err_files (fs : FS) (r f o : String) (rt : String)
    (h1 : fs r = some rt) (h2 : fs f = none) :
    make_domain_substitution_script fs r f o = (fs, some (FsError.notFound f)) := by
  unfold make_domain_substitution_script
  rw [h1, h2]

/-- Unfolding of the generator when the output path already exists. -/
theorem make_err_output (fs : FS) (r f o : String) (rt ft c : String)
    (h1 : fs r = some rt) (h2 : fs f = some ft) (h3 : fs o = some c) :
    make_domain_substitution_script fs r f o = (fs, some (FsError.alreadyExists o)) := by
  unfold make_domain_substitution_script
  rw [h1, h2, h3]

/-- Unfolding of the generator on the success path. -/
theorem make_ok (fs : FS) (r f o : String) (rt ft : String)
    (h1 : fs r = some rt) (h2 : fs f = some ft) (h3 : fs o = none) :
    make_domain_substitution_script fs r f o =
      (fun p => if p = o then some (outScript rt ft) else fs p, none) := by
  unfold make_domain_substitution_script
  rw [h1, h2, h3]

/-- Characters of the `gsub` image: each comes from the input or is one of
the three replacement characters `$`, `{`, `}`. -/
theorem gsub_chars_aux : ∀ n : Nat, ∀ l : List Char, l.length ≤ n →
    ∀ c ∈ gsub l, c ∈ l ∨ c = '$' ∨ c = '\x7b' ∨ c = '\x7d' := by
  intro n
  induction n with
  | zero =>
    intro l hl c hc
    have hl0 : l = [] := List.eq_nil_of_length_eq_zero (Nat.le_zero.mp hl)
    subst hl0
    rw [gsub_nil] at hc
    simp at hc
  | succ n ih =>
    intro l hl c hc
    rcases l with _ | ⟨c0, cs⟩
    · rw [gsub_nil] at hc
      simp at hc
    · by_cases hsh : c0 = '\\' ∧ ∃ r3, cs = 'g' :: '<' :: r3
      · obtain ⟨hc0, r3, hr3⟩ := hsh
        subst hc0 hr3
        have hlen3 : r3.length ≤ n := by
          simp at hl
          omega
        rcases match_or_not r3 with ⟨d, D1, R1, htd⟩ | hno
        · rw [gsub_pos r3 R1 d D1 htd] at hc
          have hsub : (d :: D1) ++ '>' :: R1 = r3 := by
            have happ := takeDigits_append r3
            rw [htd] at happ
            exact happ
          have hR1len : R1.length ≤ n := by
            have hle := congrArg List.length hsub
            simp at hle
            omega
          rcases List.mem_cons.mp hc with h1 | hc2
          · exact Or.inr (Or.inl h1)
          · rcases List.mem_cons.mp hc2 with h1 | hc3
            · exact Or.inr (Or.inr (Or.inl h1))
            · rcases List.mem_append.mp hc3 with h1 | hc4
              · refine Or.inl ?_
                have hcr3 : c ∈ r3 := by
                  rw [← hsub]
                  exact List.mem_append.mpr (Or.inl h1)
                simp [hcr3]
              · rcases List.mem_cons.mp hc4 with h1 | hc5
                · exact Or.inr (Or.inr (Or.inr h1))
                · rcases ih R1 hR1len c hc5 with h1 | h1
                  · refine Or.inl ?_
                    have hcr3 : c ∈ r3 := by
                      rw [← hsub]
                      exact List.mem_append.mpr (Or.inr (List.mem_cons_of_mem '>' h1))
                    simp [hcr3]
                  · exact Or.inr h1
        · rw [gsub_neg r3 hno] at hc
          rcases List.mem_cons.mp hc with h1 | hc2
          · exact Or.inl (by simp [h1])
          · rcases ih ('g' :: '<' :: r3) (by simp at hl ⊢; omega) c hc2 with h1 | h1
            · refine Or.inl ?_
              simp at h1 ⊢
              tauto
            · exact Or.inr h1
      · rw [gsub_cons c0 cs hsh] at hc
        rcases List.mem_cons.mp hc with h1 | hc2
        · exact Or.inl (by simp [h1])
        · rcases ih cs (by simp at hl; omega) c hc2 with h1 | h1
          · exact Or.inl (by simp [h1])
          · exact Or.inr h1

/-- A break-free rule line stays break-free after translation. -/
theorem gsub_no_break (l : List Char) (h : ∀ c ∈ l, isLineBreak c = false) :
    ∀ c ∈ gsub l, isLineBreak c = false := by
  intro c hc
  rcases gsub_chars_aux l.length l le_rfl c hc with h1 | h1 | h1 | h1
  · exact h c h1
  · subst h1; decide
  · subst h1; decide
  · subst h1; decide

/-- Example rules list contents used by witnesses: two rules around a blank
line, the second one using a `\g<1>` group reference. -/
def rtEx : String := "foo\\.com#example\\.com\n\n(bar)\\.qux#\\g<1>\\.example\n"

/-- Example files list contents used by witnesses: two paths around a blank
line, the second one containing a space. -/
def ftEx : String := "src/config.txt\n\nsrc/my file.txt\n"

/-- Example filesystem used by witnesses: both input lists exist, `out.sh`
exists, `gen.sh` does not. -/
def fsEx : FS := fun p =>
  if p = "domain_regex.list" then some rtEx
  else if p = "domain_substitution.list" then some ftEx
  else if p = "out.sh" then some "old content"
  else none

/-- A second filesystem with the same list contents at different paths. -/
def fsEx2 : FS := fun p =>
  if p = "r2.list" then some rtEx
  else if p = "f2.list" then some ftEx
  else none

/-- C1 (amended): when the rules and files lists both exist and a file
already exists at the output path, the invocation fails with AlreadyExists
and the filesystem — in particular the pre-existing output file's contents —
is unchanged. (As stated the claim is false: when an input list is missing
as well, the NotFound checks run first; see the counterexample.) -/
theorem C1_already_exists (fs : FS) (r f o : String) (rt ft c : String)
    (h1 : fs r = some rt) (h2 : fs f = some ft) (h3 : fs o = some c) :
    (make_domain_substitution_script fs r f o).2 = some (FsError.alreadyExists o) ∧
    (make_domain_substitution_script fs r f o).1 = fs ∧
    (make_domain_substitution_script fs r f o).1 o = some c := by
  rw [make_err_output fs r f o rt ft c h1 h2 h3]
  exact ⟨rfl, rfl, h3⟩

/-- C1 witness: a concrete run of the amended claim. -/
theorem C1_witness :
    (make_domain_substitution_script fsEx "domain_regex.list" "domain_substitution.list" "out.sh").2
        = some (FsError.alreadyExists "out.sh") ∧
    (make_domain_substitution_script fsEx "domain_regex.list" "domain_substitution.list" "out.sh").1
        = fsEx ∧
    (make_domain_substitution_script fsEx "domain_regex.list" "domain_substitution.list" "out.sh").1
        "out.sh" = some "old content" :=
  C1_already_exists fsEx "domain_regex.list" "domain_substitution.list" "out.sh"
    rtEx ftEx "old content" (by decide) (by decide) (by decide)

/-- Filesystem for the C1 counterexample: the output file exists but the
rules list does not. -/
def fsC1 : FS := fun p => if p = "out.sh" then some "old content" else none

/-- C1 counterexample: a file exists at the output path, yet the invocation
fails with NotFound (for the missing rules list), not AlreadyExists — the
claim's error, quantified over every invocation, is wrong. -/
theorem C1_counterexample :
    fsC1 "out.sh" = some "old content" ∧
    (make_domain_substitution_script fsC1 "domain_regex.list" "domain_substitution.list" "out.sh").2
        = some (FsError.notFound "domain_regex.list") ∧
    (make_domain_substitution_script fsC1 "domain_regex.list" "domain_substitution.list" "out.sh").2
        ≠ some (FsError.alreadyExists "out.sh") := by
  refine ⟨by decide, by decide, by decide⟩

/-- C2: when the rules path or the files path has no file, the invocation
fails with NotFound naming one of those two paths (the checks run before any
read), and the filesystem is unchanged — in particular no file is created at
the output path. -/
theorem C2_missing_input (fs : FS) (r f o : String) (h : fs r = none ∨ fs f = none) :
    ∃ p, (p = r ∨ p = f) ∧
      (make_domain_substitution_script fs r f o).2 = some (FsError.notFound p) ∧
      (make_domain_substitution_script fs r f o).1 = fs := by
  rcases h with h | h
  · exact ⟨r, Or.inl rfl, by rw [make_err_regex fs r f o h], by rw [make_err_regex fs r f o h]⟩
  · rcases hr : fs r with _ | rt
    · exact ⟨r, Or.inl rfl, by rw [make_err_regex fs r f o hr],
        by rw [make_err_regex fs r f o hr]⟩
    · exact ⟨f, Or.inr rfl, by rw [make_err_files fs r f o rt hr h],
        by rw [make_err_files fs r f o rt hr h]⟩

/-- C2 witness: a concrete run against a filesystem with a missing files
list (the rules list present, the output file absent). -/
theorem C2_witness :
    ∃ p, (p = "domain_regex.list" ∨ p = "missing.list") ∧
      (make_domain_substitution_script fsEx2 "domain_regex.list" "missing.list" "gen.sh").2
          = some (FsError.notFound p) ∧
      (make_domain_substitution_script fsEx2 "domain_regex.list" "missing.list" "gen.sh").1
          = fsEx2 :=
  C2_missing_input fsEx2 "domain_regex.list" "missing.list" "gen.sh" (Or.inl (by decide))

/-- C7: side-effect frame — on success the output path was free, afterwards
it holds a file, and every other path (in particular both input lists) is
unchanged; on any failure the filesystem is unchanged. -/
theorem C7_side_effect_frame (fs : FS) (r f o : String) :
    ((make_domain_substitution_script fs r f o).2 = none →
      fs o = none ∧
      (make_domain_substitution_script fs r f o).1 o ≠ none ∧
      (∀ p, p ≠ o → (make_domain_substitution_script fs r f o).1 p = fs p) ∧
      (make_domain_substitution_script fs r f o).1 r = fs r ∧
      (make_domain_substitution_script fs r f o).1 f = fs f) ∧
    ((make_domain_substitution_script fs r f o).2 ≠ none →
      (make_domain_substitution_script fs r f o).1 = fs) := by
  rcases hr : fs r with _ | rt
  · rw [make_err_regex fs r f o hr]
    exact ⟨fun h => by simp at h, fun _ => rfl⟩
  · rcases hf : fs f with _ | ft
    · rw [make_err_files fs r f o rt hr hf]
      exact ⟨fun h => by simp at h, fun _ => rfl⟩
    · rcases ho : fs o with _ | c
      · rw [make_ok fs r f o rt ft hr hf ho]
        have hro : r ≠ o := by
          intro e
          rw [e, ho] at hr
          simp at hr
        have hfo : f ≠ o := by
          intro e
          rw [e, ho] at hf
          simp at hf
        refine ⟨fun _ => ⟨rfl, ?_, ?_, ?_, ?_⟩, fun h2 => absurd rfl h2⟩
        · simp
        · intro p hp
          simp [hp]
        · simp [hro, hr]
        · simp [hfo, hf]
      · rw [make_err_output fs r f o rt ft c hr hf ho]
        exact ⟨fun h => by simp at h, fun _ => rfl⟩

/-- C7 witness: a successful concrete run creates the output file, and a
failing concrete run leaves the filesystem unchanged. -/
theorem C7_witness :
    (make_domain_substitution_script fsEx "domain_regex.list" "domain_substitution.list" "gen.sh").1
        "gen.sh" ≠ none ∧
    (make_domain_substitution_script fsEx "domain_regex.list" "domain_substitution.list" "out.sh").1
        = fsEx := by
  constructor
  · exact (((C7_side_effect_frame fsEx "domain_regex.list" "domain_substitution.list" "gen.sh").1
      (by decide)).2).1
  · exact (C7_side_effect_frame fsEx "domain_regex.list" "domain_substitution.list" "out.sh").2
      (by decide)

/-- C8: purity/determinism — two invocations whose rules lists have equal
contents and whose files lists have equal contents, with free output paths,
both succeed and write byte-identical scripts; nothing else in either
filesystem influences the artifact. -/
theorem C8_determinism (fs1 fs2 : FS) (r1 f1 o1 r2 f2 o2 : String) (rt ft : String)
    (h1 : fs1 r1 = some rt) (h2 : fs1 f1 = some ft) (h3 : fs1 o1 = none)
    (h4 : fs2 r2 = some rt) (h5 : fs2 f2 = some ft) (h6 : fs2 o2 = none) :
    (make_domain_substitution_script fs1 r1 f1 o1).2 = none ∧
    (make_domain_substitution_script fs2 r2 f2 o2).2 = none ∧
    (make_domain_substitution_script fs1 r1 f1 o1).1 o1 =
      (make_domain_substitution_script fs2 r2 f2 o2).1 o2 := by
  rw [make_ok fs1 r1 f1 o1 rt ft h1 h2 h3, make_ok fs2 r2 f2 o2 rt ft h4 h5 h6]
  exact ⟨rfl, rfl, by simp⟩

/-- C8 witness: the two example filesystems hold the same list contents at
different paths; the two runs agree on the written script. -/
theorem C8_witness :
    (make_domain_substitution_script fsEx "domain_regex.list" "domain_substitution.list" "gen.sh").2
        = none ∧
    (make_domain_substitution_script fsEx2 "r2.list" "f2.list" "out2.sh").2 = none ∧
    (make_domain_substitution_script fsEx "domain_regex.list" "domain_substitution.list" "gen.sh").1
        "gen.sh" =
      (make_domain_substitution_script fsEx2 "r2.list" "f2.list" "out2.sh").1 "out2.sh" :=
  C8_determinism fsEx fsEx2 "domain_regex.list" "domain_substitution.list" "gen.sh"
    "r2.list" "f2.list" "out2.sh" rtEx ftEx
    (by decide) (by decide) (by decide) (by decide) (by decide) (by decide)

/-- Translated substitution statement lines as they stand in the emitted
script: four spaces of indentation, the `s#...#g` expression, a `;`. -/
def stmtsOf (rt : String) : List (List Char) :=
  (nonblankLines rt).map fun x => "    ".data ++ ("s#".data ++ gsub x ++ "#g".data) ++ [';']

/-- The characters of the emitted script, decomposed at the template's three
interpolation points. -/
theorem outScript_data (rt ft : String) :
    (outScript rt ft).data =
      tmplA.data ++ joinNL (nonblankLines ft) ++ tmplB.data ++
      (Nat.repr (nonblankLines ft).length).data ++ tmplC.data ++
      joinNL (stmtsOf rt) ++ tmplD.data := by
  simp only [outScript, stmtsOf, List.map_map]
  rfl

/-- The output file after a successful run holds exactly the script text. -/
theorem make_ok_out (fs : FS) (r f o : String) (rt ft : String)
    (h1 : fs r = some rt) (h2 : fs f = some ft) (h3 : fs o = none)
    (X : List Char) (hX : (outScript rt ft).data = X) :
    (make_domain_substitution_script fs r f o).1 o = some (⟨X⟩ : String) := by
  rw [make_ok fs r f o rt ft h1 h2 h3]
  show (if o = o then some (outScript rt ft) else fs o) = some (⟨X⟩ : String)
  rw [if_pos rfl, ← hX]

/-- Lines of a list file are nonempty and free of line breaks once the blank
lines are filtered out. -/
theorem nonblankLines_wellformed (s : String) :
    ∀ l ∈ nonblankLines s, l ≠ [] ∧ ∀ c ∈ l, isLineBreak c = false := by
  intro l hl
  have hm := List.mem_filter.mp hl
  refine ⟨?_, fun c hc => splitlines_no_break (readText s) l hm.1 c hc⟩
  intro h0
  subst h0
  simp at hm

/-- The emitted statement lines are nonempty and free of line breaks. -/
theorem stmtsOf_wellformed (rt : String) :
    ∀ s ∈ stmtsOf rt, s ≠ [] ∧ ∀ c ∈ s, isLineBreak c = false := by
  intro s hs
  obtain ⟨x, hx, hsx⟩ := List.mem_map.mp hs
  subst hsx
  refine ⟨by simp, ?_⟩
  intro c hc
  rcases List.mem_append.mp hc with hc1 | hc1
  · rcases List.mem_append.mp hc1 with hc2 | hc2
    · have hsp : c = ' ' := by
        simpa using hc2
      subst hsp
      decide
    · rcases List.mem_append.mp hc2 with hc3 | hc3
      · rcases List.mem_append.mp hc3 with hc4 | hc4
        · have hlit : c = 's' ∨ c = '#' := by
            simpa using hc4
          rcases hlit with h | h <;> (subst h; decide)
        · exact gsub_no_break x ((nonblankLines_wellformed rt x hx).2) c hc4
      · have hlit : c = '#' ∨ c = 'g' := by
          simpa using hc3
        rcases hlit with h | h <;> (subst h; decide)
  · have hlit : c = ';' := by
      simpa using hc1
    subst hlit
    decide

/-- C3: blank-line filtering and one statement per rule — a successful run
writes a script containing a block that splits into exactly one line per
non-blank rule line, in the original order, each line closed by `;`. -/
theorem C3_one_statement_per_rule (fs : FS) (r f o : String) (rt ft : String)
    (h1 : fs r = some rt) (h2 : fs f = some ft) (h3 : fs o = none) :
    (make_domain_substitution_script fs r f o).2 = none ∧
    ∃ pre post,
      (make_domain_substitution_script fs r f o).1 o =
        some (⟨pre ++ joinNL (stmtsOf rt) ++ post⟩ : String) ∧
      stmtsOf rt =
        (nonblankLines rt).map (fun x => "    ".data ++ ("s#".data ++ gsub x ++ "#g".data) ++ [';']) ∧
      splitlines (joinNL (stmtsOf rt)) = stmtsOf rt ∧
      (stmtsOf rt).length = (nonblankLines rt).length ∧
      ∀ s ∈ stmtsOf rt, s.getLast? = some ';' := by
  refine ⟨by rw [make_ok fs r f o rt ft h1 h2 h3], ?_⟩
  refine ⟨tmplA.data ++ joinNL (nonblankLines ft) ++ tmplB.data ++
    (Nat.repr (nonblankLines ft).length).data ++ tmplC.data, tmplD.data, ?_, rfl, ?_, ?_, ?_⟩
  · refine make_ok_out fs r f o rt ft h1 h2 h3 _ ?_
    rw [outScript_data]
  · exact joinNL_splitlines (stmtsOf rt) (stmtsOf_wellformed rt)
  · simp [stmtsOf]
  · intro s hs
    obtain ⟨x, _, hsx⟩ := List.mem_map.mp hs
    subst hsx
    rw [show "    ".data ++ ("s#".data ++ gsub x ++ "#g".data) ++ [';'] =
      ("    ".data ++ ("s#".data ++ gsub x ++ "#g".data)) ++ [';'] by simp]
    exact List.getLast?_concat _

/-- C5: file-list fidelity — a successful run writes a script whose literal
file-list block (right after the heredoc marker line that ends `tmplA`)
splits back into exactly the non-blank lines of the files list, verbatim and
in order, with none dropped, duplicated or reordered. -/
theorem C5_file_list_fidelity (fs : FS) (r f o : String) (rt ft : String)
    (h1 : fs r = some rt) (h2 : fs f = some ft) (h3 : fs o = none) :
    (make_domain_substitution_script fs r f o).2 = none ∧
    ∃ post,
      (make_domain_substitution_script fs r f o).1 o =
        some (⟨tmplA.data ++ joinNL (nonblankLines ft) ++ post⟩ : String) ∧
      splitlines (joinNL (nonblankLines ft)) = nonblankLines ft ∧
      nonblankLines ft = (splitlines (readText ft)).filter (fun l => !l.isEmpty) := by
  refine ⟨by rw [make_ok fs r f o rt ft h1 h2 h3], ?_⟩
  refine ⟨tmplB.data ++ (Nat.repr (nonblankLines ft).length).data ++ tmplC.data ++
    joinNL (stmtsOf rt) ++ tmplD.data, ?_, ?_, rfl⟩
  · refine make_ok_out fs r f o rt ft h1 h2 h3 _ ?_
    rw [outScript_data]
    simp [List.append_assoc]
  · exact joinNL_splitlines (nonblankLines ft) (nonblankLines_wellformed ft)

/-- C6: substitution-expression wrapping — each translated statement in the
written script is exactly the translated rule text wrapped as `s#<...>#g`,
indented and terminated by `;` in the statement block. -/
theorem C6_substitution_wrapping (fs : FS) (r f o : String) (rt ft : String)
    (h1 : fs r = some rt) (h2 : fs f = some ft) (h3 : fs o = none) :
    (make_domain_substitution_script fs r f o).2 = none ∧
    ∃ pre post,
      (make_domain_substitution_script fs r f o).1 o =
        some (⟨pre ++
          joinNL ((nonblankLines rt).map fun x =>
            "    ".data ++ ("s#".data ++ gsub x ++ "#g".data) ++ [';']) ++ post⟩ : String) := by
  refine ⟨by rw [make_ok fs r f o rt ft h1 h2 h3], ?_⟩
  refine ⟨tmplA.data ++ joinNL (nonblankLines ft) ++ tmplB.data ++
    (Nat.repr (nonblankLines ft).length).data ++ tmplC.data, tmplD.data, ?_⟩
  refine make_ok_out fs r f o rt ft h1 h2 h3 _ ?_
  rw [outScript_data]
  simp [stmtsOf, List.append_assoc]

/-- C9: the blank-line filter drops exactly the zero-length lines, so a line
consisting only of whitespace (a space, a tab, ...) is kept as an entry. -/
theorem C9_whitespace_lines_kept (s : String) :
    nonblankLines s = (splitlines (readText s)).filter (fun l => decide (l ≠ [])) ∧
    ∀ l ∈ splitlines (readText s), (∀ c ∈ l, c.isWhitespace) → l ≠ [] →
      l ∈ nonblankLines s := by
  constructor
  · unfold nonblankLines
    refine List.filter_congr ?_
    intro l _
    cases l <;> simp
  · intro l hl _ hne
    unfold nonblankLines
    refine List.mem_filter.mpr ⟨hl, ?_⟩
    cases l with
    | nil => exact absurd rfl hne
    | cons c cs => simp

/-- C9 witness: with the contents " \nfoo", the whitespace-only first line
" " is kept as an entry. -/
theorem C9_witness : (" ".data : List Char) ∈ nonblankLines " \nfoo" :=
  (C9_whitespace_lines_kept " \nfoo").2 " ".data (by decide) (by decide) (by decide)

/-- C10: with a files list holding no non-blank line, the emitted file-list
block is one single empty line (the block region, the interpolated string
plus the newline before the closing heredoc marker, splits into exactly one
empty line), while the progress message reports 0 files. -/
theorem C10_empty_files_block (fs : FS) (r f o : String) (rt ft : String)
    (h1 : fs r = some rt) (h2 : fs f = some ft) (h3 : fs o = none)
    (hempty : nonblankLines ft = []) :
    (make_domain_substitution_script fs r f o).2 = none ∧
    (make_domain_substitution_script fs r f o).1 o =
      some (⟨tmplA.data ++ tmplB.data ++ "0".data ++ tmplC.data ++
        joinNL (stmtsOf rt) ++ tmplD.data⟩ : String) ∧
    splitlines (joinNL (nonblankLines ft) ++ ['\n']) = [[]] ∧
    (nonblankLines ft).length = 0 ∧
    Nat.repr (nonblankLines ft).length = "0" := by
  refine ⟨by rw [make_ok fs r f o rt ft h1 h2 h3], ?_, ?_, ?_, ?_⟩
  · refine make_ok_out fs r f o rt ft h1 h2 h3 _ ?_
    rw [outScript_data, hempty]
    have h0 : joinNL ([] : List (List Char)) = [] := rfl
    have h1r : Nat.repr (([] : List (List Char)).length) = "0" := rfl
    rw [h0, h1r]
    simp
  · rw [hempty]
    rfl
  · rw [hempty]
    rfl
  · rw [hempty]
    rfl

/-- Filesystem for the C10 witness: the files list holds only blank lines. -/
def fsC10 : FS := fun p =>
  if p = "domain_regex.list" then some "a#b\n"
  else if p = "domain_substitution.list" then some "\n\n"
  else none

/-- Stripping the fixed statement frame: if the translated rule text holds
no literal `\g<N>`, neither does the whole `s#...#g` statement with the
surrounding characters of the template line. -/
theorem stmt_no_gref (X : List Char)
    (hX : ∀ a ds2 b, ds2 ≠ [] → (∀ c ∈ ds2, c.isDigit) →
      X ≠ a ++ '\\' :: 'g' :: '<' :: (ds2 ++ '>' :: b)) :
    ∀ a ds2 b, ds2 ≠ [] → (∀ c ∈ ds2, c.isDigit) →
    's' :: '#' :: (X ++ ['#', 'g']) ≠ a ++ '\\' :: 'g' :: '<' :: (ds2 ++ '>' :: b) := by
  intro a ds2 b hne hds heq
  rcases a with _ | ⟨a0, a3⟩
  · injection heq with e1 _
    exact absurd e1 (by decide)
  · injection heq with e1 e2
    rcases a3 with _ | ⟨a1, a2⟩
    · injection e2 with e3 _
      exact absurd e3 (by decide)
    · injection e2 with e3 e4
      simp only [List.append_eq] at e4
      rcases hbr : b.reverse with _ | ⟨y2, br1⟩
      · have hb : b = [] := by
          rw [← List.reverse_reverse b, hbr]
          rfl
        subst hb
        have hL : (X ++ ['#', 'g']).getLast? = some 'g' := by
          rw [show X ++ ['#', 'g'] = (X ++ ['#']) ++ ['g'] by simp]
          exact List.getLast?_concat _
        have hR : (a2 ++ '\\' :: 'g' :: '<' :: (ds2 ++ '>' :: [])).getLast? = some '>' := by
          rw [show a2 ++ '\\' :: 'g' :: '<' :: (ds2 ++ '>' :: []) =
            (a2 ++ '\\' :: 'g' :: '<' :: ds2) ++ ['>'] by simp]
          exact List.getLast?_concat _
        rw [e4, hR] at hL
        injection hL with e5
        exact absurd e5 (by decide)
      · rcases br1 with _ | ⟨y1, br2⟩
        · have hb : b = [y2] := by
            rw [← List.reverse_reverse b, hbr]
            rfl
          subst hb
          have e5 : (X ++ ['#']) ++ ['g'] =
              ((a2 ++ '\\' :: 'g' :: '<' :: ds2) ++ ['>']) ++ [y2] := by
            rw [show (X ++ ['#']) ++ ['g'] = X ++ ['#', 'g'] by simp, e4]
            simp
          obtain ⟨e6, _⟩ := List.append_inj' e5 rfl
          have hL : (X ++ ['#']).getLast? = some '#' := List.getLast?_concat _
          have hR : ((a2 ++ '\\' :: 'g' :: '<' :: ds2) ++ ['>']).getLast? = some '>' :=
            List.getLast?_concat _
          rw [e6, hR] at hL
          injection hL with e7
          exact absurd e7 (by decide)
        · have hb : b = br2.reverse ++ [y1, y2] := by
            rw [← List.reverse_reverse b, hbr]
            simp
          subst hb
          have e5 : X ++ ['#', 'g'] =
              (a2 ++ '\\' :: 'g' :: '<' :: (ds2 ++ '>' :: br2.reverse)) ++ [y1, y2] := by
            rw [e4]
            simp
          obtain ⟨e6, _⟩ := List.append_inj' e5 rfl
          exact hX a2 ds2 br2.reverse hne hds e6

/-- C4: group-reference translation — for a rule whose text contains
`\g<N>` (a literal backslash, `g`, `<`, a nonempty digit run, `>`), the
emitted substitution statement `s#<translated>#g` contains `${N}` with the
same digits, and no literal `\g<M>` for any digit run `M` remains anywhere
in that statement. -/
theorem C4_group_reference_translation (x u ds v : List Char)
    (hx : x = u ++ '\\' :: 'g' :: '<' :: (ds ++ '>' :: v))
    (hne : ds ≠ []) (hds : ∀ c ∈ ds, c.isDigit) :
    (∃ a b, "s#".data ++ gsub x ++ "#g".data = a ++ '$' :: '\x7b' :: (ds ++ '\x7d' :: b)) ∧
    (∀ a ds2 b, ds2 ≠ [] → (∀ c ∈ ds2, c.isDigit) →
      "s#".data ++ gsub x ++ "#g".data ≠ a ++ '\\' :: 'g' :: '<' :: (ds2 ++ '>' :: b)) := by
  constructor
  · obtain ⟨a, b, hab⟩ := gsub_decomp x u ds v hx hne hds
    refine ⟨"s#".data ++ a, b ++ "#g".data, ?_⟩
    rw [hab]
    simp
  · intro a ds2 b hne2 hds2 heq
    have heq2 : 's' :: '#' :: (gsub x ++ ['#', 'g']) =
        a ++ '\\' :: 'g' :: '<' :: (ds2 ++ '>' :: b) := by
      rw [← heq]
      simp
    exact stmt_no_gref (gsub x) (fun a3 ds3 b3 hn3 hd3 => gsub_no_gref x a3 ds3 b3 hn3 hd3)
      a ds2 b hne2 hds2 heq2

/-- C3 witness: a concrete successful run. -/
theorem C3_witness :
    (make_domain_substitution_script fsEx "domain_regex.list" "domain_substitution.list"
        "gen.sh").2 = none ∧
    ∃ pre post,
      (make_domain_substitution_script fsEx "domain_regex.list" "domain_substitution.list"
          "gen.sh").1 "gen.sh" =
        some (⟨pre ++ joinNL (stmtsOf rtEx) ++ post⟩ : String) ∧
      stmtsOf rtEx =
        (nonblankLines rtEx).map
          (fun x => "    ".data ++ ("s#".data ++ gsub x ++ "#g".data) ++ [';']) ∧
      splitlines (joinNL (stmtsOf rtEx)) = stmtsOf rtEx ∧
      (stmtsOf rtEx).length = (nonblankLines rtEx).length ∧
      ∀ s ∈ stmtsOf rtEx, s.getLast? = some ';' :=
  C3_one_statement_per_rule fsEx "domain_regex.list" "domain_substitution.list" "gen.sh"
    rtEx ftEx (by decide) (by decide) (by decide)

/-- C5 witness: a concrete successful run, with a path containing a space. -/
theorem C5_witness :
    (make_domain_substitution_script fsEx "domain_regex.list" "domain_substitution.list"
        "gen.sh").2 = none ∧
    ∃ post,
      (make_domain_substitution_script fsEx "domain_regex.list" "domain_substitution.list"
          "gen.sh").1 "gen.sh" =
        some (⟨tmplA.data ++ joinNL (nonblankLines ftEx) ++ post⟩ : String) ∧
      splitlines (joinNL (nonblankLines ftEx)) = nonblankLines ftEx ∧
      nonblankLines ftEx = (splitlines (readText ftEx)).filter (fun l => !l.isEmpty) :=
  C5_file_list_fidelity fsEx "domain_regex.list" "domain_substitution.list" "gen.sh"
    rtEx ftEx (by decide) (by decide) (by decide)

/-- C6 witness: a concrete successful run. -/
theorem C6_witness :
    (make_domain_substitution_script fsEx "domain_regex.list" "domain_substitution.list"
        "gen.sh").2 = none ∧
    ∃ pre post,
      (make_domain_substitution_script fsEx "domain_regex.list" "domain_substitution.list"
          "gen.sh").1 "gen.sh" =
        some (⟨pre ++
          joinNL ((nonblankLines rtEx).map fun x =>
            "    ".data ++ ("s#".data ++ gsub x ++ "#g".data) ++ [';']) ++ post⟩ : String) :=
  C6_substitution_wrapping fsEx "domain_regex.list" "domain_substitution.list" "gen.sh"
    rtEx ftEx (by decide) (by decide) (by decide)

/-- C10 witness: a concrete run whose files list holds only blank lines. -/
theorem C10_witness :
    (make_domain_substitution_script fsC10 "domain_regex.list" "domain_substitution.list"
        "gen.sh").2 = none ∧
    (make_domain_substitution_script fsC10 "domain_regex.list" "domain_substitution.list"
        "gen.sh").1 "gen.sh" =
      some (⟨tmplA.data ++ tmplB.data ++ "0".data ++ tmplC.data ++
        joinNL (stmtsOf "a#b\n") ++ tmplD.data⟩ : String) ∧
    splitlines (joinNL (nonblankLines "\n\n") ++ ['\n']) = [[]] ∧
    (nonblankLines "\n\n").length = 0 ∧
    Nat.repr (nonblankLines "\n\n").length = "0" :=
  C10_empty_files_block fsC10 "domain_regex.list" "domain_substitution.list" "gen.sh"
    "a#b\n" "\n\n" (by decide) (by decide) (by decide) (by decide)

/-- C4 witness: the witness rule of the example rules list, with its
`\g<1>` group reference. -/
theorem C4_witness :
    (∃ a b, "s#".data ++ gsub "(bar)\\.qux#\\g<1>\\.example".data ++ "#g".data =
        a ++ '$' :: '\x7b' :: ((['1'] : List Char) ++ '\x7d' :: b)) ∧
    (∀ a ds2 b, ds2 ≠ [] → (∀ c ∈ ds2, c.isDigit) →
      "s#".data ++ gsub "(bar)\\.qux#\\g<1>\\.example".data ++ "#g".data ≠
        a ++ '\\' :: 'g' :: '<' :: (ds2 ++ '>' :: b)) :=
  C4_group_reference_translation "(bar)\\.qux#\\g<1>\\.example".data "(bar)\\.qux#".data
    ['1'] "\\.example".data (by decide) (by decide) (by decide)

example : gsub "abc".data = "abc".data := by decide
example : gsub "a\\g<1>b".data = "a$\x7b1\x7db".data := by decide
example : gsub "\\g<1".data = "\\g<1".data := by decide
example : gsub "\\\\g<1>".data = "\\$\x7b1\x7d".data := by decide
example : gsub "x\\g<007>y".data = "x$\x7b007\x7dy".data := by decide
example : gsub "\\g<1>>".data = "$\x7b1\x7d>".data := by decide
example : gsub "\\g\\g<2>".data = "\\g$\x7b2\x7d".data := by decide
example : gsub "##\\g<10>#".data = "##$\x7b10\x7d#".data := by decide
example : gsub "\\g<1\\g<2>>".data = "\\g<1$\x7b2\x7d>".data := by decide
example : gsub "\\gg<1>".data = "\\gg<1>".data := by decide
example : gsub "g<1>".data = "g<1>".data := by decide
example : gsub "\\G<1>".data = "\\G<1>".data := by decide
example : gsub "\\g< 1>".data = "\\g< 1>".data := by decide
example : gsub "\\g<1 >".data = "\\g<1 >".data := by decide
example : gsub "a\\g<123456>b".data = "a$\x7b123456\x7db".data := by decide

example : splitlines "a\rb\r\nc".data = ["a".data, "b".data, "c".data] := by decide
example : splitlines "\x0b".data = [[]] := by decide
example : splitlines " \x0b ".data = [" ".data, " ".data] := by decide
example : splitlines "a\x85b".data = ["a".data, "b".data] := by decide
example : splitlines "a\u2028b".data = ["a".data, "b".data] := by decide
example : splitlines "\n\n".data = [[], []] := by decide
example : splitlines "a\n\nb\n".data = ["a".data, [], "b".data] := by decide
example : splitlines "\r".data = [[]] := by decide
example : splitlines "a\r".data = ["a".data] := by decide

example : nonblankLines "one\r\ntwo\r\rthree\n" =
    ["one".data, "two".data, "three".data] := by decide
example : gsub "\\g<12>\\g<3>".data = "$\x7b12\x7d$\x7b3\x7d".data := by decide
example : gsub "\\g<>x".data = "\\g<>x".data := by decide
example : gsub "\\g<1a>".data = "\\g<1a>".data := by decide
example : gsub "\\g<\\g<1>>".data = "\\g<$\x7b1\x7d>".data := by decide

/- End-to-end check: on the witness inputs, the full generated script, the code
path of lines 35-75, evaluates to exactly the text the source emits. -/
set_option maxRecDepth 10000 in
example : outScript rtEx ftEx = "#!/bin/sh -e\n#\n# This script performs domain substitution on the Chromium source files.\n#\n# Generated by make_domsub_script.py, part of the ungoogled-chromium project:\n# https://github.com/ungoogled-software/ungoogled-chromium.git\n#\n\n# Check that we are inside the Chromium source tree\ntest -f build/config/compiler/BUILD.gn\n\n# These filenames may contain spaces and/or other unusual characters\nprint_file_list() \x7b\n\tcat <<'__END__'\nsrc/config.txt\nsrc/my file.txt\n__END__\n\x7d\n\necho \"Creating backup archive ...\"\n\nbackup=domain-substitution.orig.tar\nprint_file_list | tar cf $backup --verbatim-files-from --files-from=-\n\necho \"Applying ungoogled-chromium domain substitution to 2 files ...\"\n\nprint_file_list | xargs -d '\\n' perl -0777 -C0 -pwi -e '\n    s#foo\\.com#example\\.com#g;\n    s#(bar)\\.qux#$\x7b1\x7d\\.example#g;\n'\n\n# end\n" := by decide

end DomSub
